import Mathlib

/-!
Shallow embedding of the repository source file cache.py, which defines two
containers: LRUCache (capacity bounded, least recently used eviction) and
TTLCache (time bounded, lazy expiration).

Python dictionaries (dict, OrderedDict) are modelled as association lists in
insertion order; every reachable dictionary has pairwise distinct keys.  Wall
clock readings (time.time) are modelled as integers passed explicitly to each
operation.  Operations that can raise KeyError return Option, or return the
post-exception state together with an Option result when the source mutates
the store before raising.
-/

/-- Entries stored by both caches: a value paired with a timestamp. -/
abbrev Entry (K V : Type) := K × V × Int

/-- Dictionary lookup d[key]: the value and timestamp stored under a key. -/
def lookupEntry {K V : Type} [DecidableEq K] (key : K) (d : List (Entry K V)) :
    Option (V × Int) :=
  (d.find? (fun e => e.1 = key)).map (fun e => e.2)

/-- Dictionary membership test, as in the expression key in d. -/
def containsKey {K V : Type} [DecidableEq K] (key : K) (d : List (Entry K V)) : Bool :=
  (lookupEntry key d).isSome

/-- Dictionary deletion, as in del d[key]. -/
def eraseKey {K V : Type} [DecidableEq K] (key : K) (d : List (Entry K V)) :
    List (Entry K V) :=
  d.filter (fun e => e.1 ≠ key)

/-- Dictionary update d[key] = (value, now): an existing key keeps its position
and receives the new value, a new key is appended at the end. -/
def dictSet {K V : Type} [DecidableEq K] (key : K) (value : V) (now : Int)
    (d : List (Entry K V)) : List (Entry K V) :=
  if containsKey key d then
    d.map (fun e => if e.1 = key then (key, value, now) else e)
  else
    d ++ [(key, value, now)]

/-- OrderedDict.move_to_end: move the entry of a present key to the most
recently used end, keeping its stored value.  The source only invokes it after
a membership check, so the missing-key branch is never reached there. -/
def moveToEnd {K V : Type} [DecidableEq K] (key : K) (d : List (Entry K V)) :
    List (Entry K V) :=
  match lookupEntry key d with
  | some vt => eraseKey key d ++ [(key, vt.1, vt.2)]
  | none => d

/-- The key sequence of a store, in insertion (for LRU: recency) order. -/
def keysOf {K V : Type} (d : List (Entry K V)) : List K :=
  d.map (fun e => e.1)

/-- The clock-free projection of a store: keys and values without timestamps. -/
def projL {K V : Type} (d : List (Entry K V)) : List (K × V) :=
  d.map (fun e => (e.1, e.2.1))

/-- LRUCache state: max_size (an int, not validated) and the ordered store
data mapping keys to (value, timestamp), least recently used first. -/
structure LRUCache (K V : Type) where
  max_size : Int
  data : List (Entry K V)
deriving DecidableEq

/-- LRUCache.__init__: stores max_size (default 100) and an empty store.
The source performs no validation of max_size. -/
def LRUCache.init (K V : Type) (max_size : Int) : LRUCache K V :=
  { max_size := max_size, data := [] }

/-- LRUCache.__setitem__: refresh a present key, otherwise evict the front
entry when the store is at or above capacity, then write at the MRU end.
Returns none when popitem is called on an empty store (a KeyError in the
source, possible only when max_size ≤ 0); no mutation precedes that raise. -/
def LRUCache.setItem {K V : Type} [DecidableEq K] (c : LRUCache K V) (key : K)
    (value : V) (now : Int) : Option (LRUCache K V) :=
  if containsKey key c.data then
    some { c with data := dictSet key value now (moveToEnd key c.data) }
  else if (c.data.length : Int) ≥ c.max_size then
    match c.data with
    | [] => none
    | _ :: rest => some { c with data := dictSet key value now rest }
  else
    some { c with data := dictSet key value now c.data }

/-- LRUCache.__getitem__: pop a present key and re-insert it through setItem,
returning its value; a missing key raises KeyError (modelled as none).  When
the inner setItem raises (degenerate capacities only), the pop has already
happened, so the failure state keeps the key removed. -/
def LRUCache.getItem {K V : Type} [DecidableEq K] (c : LRUCache K V) (key : K)
    (now : Int) : Option V × LRUCache K V :=
  match lookupEntry key c.data with
  | some vt =>
      let popped : LRUCache K V := { c with data := eraseKey key c.data }
      match popped.setItem key vt.1 now with
      | some c2 => (some vt.1, c2)
      | none => (none, popped)
  | none => (none, c)

/-- LRUCache.get: the defaulting variant of getItem. -/
def LRUCache.get {K V : Type} [DecidableEq K] (c : LRUCache K V) (key : K)
    (dflt : V) (now : Int) : V × LRUCache K V :=
  match c.getItem key now with
  | (some v, c2) => (v, c2)
  | (none, c2) => (dflt, c2)

/-- LRUCache.__delitem__: remove a present key, raise KeyError otherwise. -/
def LRUCache.delItem {K V : Type} [DecidableEq K] (c : LRUCache K V) (key : K) :
    Option (LRUCache K V) :=
  if containsKey key c.data then
    some { c with data := eraseKey key c.data }
  else
    none

/-- LRUCache.__contains__: pure membership test, no recency effect. -/
def LRUCache.contains {K V : Type} [DecidableEq K] (c : LRUCache K V) (key : K) :
    Bool :=
  containsKey key c.data

/-- LRUCache.__len__. -/
def LRUCache.size {K V : Type} (c : LRUCache K V) : Nat :=
  c.data.length

/-- LRUCache.__iter__: keys in recency order, least recently used first. -/
def LRUCache.iterKeys {K V : Type} (c : LRUCache K V) : List K :=
  keysOf c.data

/-- Rendering of one entry inside __repr__: key and value only, never the
timestamp.  kr and vr stand for the repr functions of keys and values. -/
def entryRender {K V : Type} (kr : K → String) (vr : V → String) (e : Entry K V) :
    String :=
  kr e.1 ++ ": " ++ vr e.2.1

/-- LRUCache.__repr__. -/
def LRUCache.reprS {K V : Type} (kr : K → String) (vr : V → String)
    (c : LRUCache K V) : String :=
  "LRUCache(\x7b " ++ String.intercalate ", " (c.data.map (entryRender kr vr)) ++ " \x7d)"

/-- TTLCache state: ttl (not validated) and the store _data mapping keys to
(value, insertion timestamp). -/
structure TTLCache (K V : Type) where
  ttl : Int
  data : List (Entry K V)
deriving DecidableEq

/-- TTLCache.__init__: stores ttl (default 60.0) and an empty store.  The
source performs no validation of ttl. -/
def TTLCache.init (K V : Type) (ttl : Int) : TTLCache K V :=
  { ttl := ttl, data := [] }

/-- TTLCache.__setitem__: unconditional write stamping the current time. -/
def TTLCache.setItem {K V : Type} [DecidableEq K] (c : TTLCache K V) (key : K)
    (value : V) (now : Int) : TTLCache K V :=
  { c with data := dictSet key value now c.data }

/-- TTLCache.__getitem__: return a fresh value; delete an expired entry and
then raise KeyError (none, with the entry removed); raise on a missing key. -/
def TTLCache.getItem {K V : Type} [DecidableEq K] (c : TTLCache K V) (key : K)
    (now : Int) : Option V × TTLCache K V :=
  match lookupEntry key c.data with
  | some vt =>
      if now - vt.2 ≤ c.ttl then (some vt.1, c)
      else (none, { c with data := eraseKey key c.data })
  | none => (none, c)

/-- TTLCache.get: the defaulting variant of getItem. -/
def TTLCache.get {K V : Type} [DecidableEq K] (c : TTLCache K V) (key : K)
    (dflt : V) (now : Int) : V × TTLCache K V :=
  match c.getItem key now with
  | (some v, c2) => (v, c2)
  | (none, c2) => (dflt, c2)

/-- TTLCache.__delitem__: remove a key present in the store, whatever its
expiry state; raise KeyError (none) on a missing key. -/
def TTLCache.delItem {K V : Type} [DecidableEq K] (c : TTLCache K V) (key : K) :
    Option (TTLCache K V) :=
  if containsKey key c.data then
    some { c with data := eraseKey key c.data }
  else
    none

/-- TTLCache.__contains__: true only for a present, fresh key; removes an
expired entry as a side effect before answering false. -/
def TTLCache.containsCheck {K V : Type} [DecidableEq K] (c : TTLCache K V)
    (key : K) (now : Int) : Bool × TTLCache K V :=
  match lookupEntry key c.data with
  | some vt =>
      if now - vt.2 ≤ c.ttl then (true, c)
      else (false, { c with data := eraseKey key c.data })
  | none => (false, c)

/-- TTLCache._expire_all: collect the keys of expired entries against one
clock sample, then delete each of them. -/
def TTLCache.expireAll {K V : Type} [DecidableEq K] (c : TTLCache K V)
    (now : Int) : TTLCache K V :=
  let keysToRemove := keysOf (c.data.filter (fun e => now - e.2.2 > c.ttl))
  { c with data := keysToRemove.foldl (fun d k => eraseKey k d) c.data }

/-- TTLCache.__len__: sweep, then count the survivors. -/
def TTLCache.len {K V : Type} [DecidableEq K] (c : TTLCache K V) (now : Int) :
    Nat × TTLCache K V :=
  let c2 := c.expireAll now
  (c2.data.length, c2)

/-- TTLCache.__iter__: sweep, then list the surviving keys. -/
def TTLCache.iterKeys {K V : Type} [DecidableEq K] (c : TTLCache K V)
    (now : Int) : List K × TTLCache K V :=
  let c2 := c.expireAll now
  (keysOf c2.data, c2)

/-- TTLCache.__repr__: sweep, then render the surviving entries. -/
def TTLCache.reprS {K V : Type} [DecidableEq K] (kr : K → String)
    (vr : V → String) (c : TTLCache K V) (now : Int) : String × TTLCache K V :=
  let c2 := c.expireAll now
  ("TTLCache(\x7b " ++ String.intercalate ", " (c2.data.map (entryRender kr vr)) ++ " \x7d)",
   c2)

/-! Basic lemmas about the dictionary primitives. -/

theorem lookupEntry_cons {K V : Type} [DecidableEq K] (key : K) (e : Entry K V)
    (d : List (Entry K V)) :
    lookupEntry key (e :: d) = if e.1 = key then some e.2 else lookupEntry key d := by
  by_cases h : e.1 = key <;> simp [lookupEntry, List.find?_cons, h]

theorem containsKey_iff_mem {K V : Type} [DecidableEq K] (key : K)
    (d : List (Entry K V)) :
    containsKey key d = true ↔ key ∈ keysOf d := by
  simp only [containsKey, lookupEntry, Option.isSome_map', List.find?_isSome,
    decide_eq_true_eq, keysOf, List.mem_map]

theorem containsKey_eq_false {K V : Type} [DecidableEq K] (key : K)
    (d : List (Entry K V)) :
    containsKey key d = false ↔ ∀ e ∈ d, e.1 ≠ key := by
  simp [containsKey, lookupEntry, List.find?_eq_none]

theorem lookupEntry_eraseKey_self {K V : Type} [DecidableEq K] (key : K)
    (d : List (Entry K V)) :
    lookupEntry key (eraseKey key d) = none := by
  simp only [lookupEntry, eraseKey, Option.map_eq_none', List.find?_eq_none,
    List.mem_filter]
  intro e he
  simp only [decide_eq_true_eq] at he
  simp [he.2]

theorem keysOf_eraseKey {K V : Type} [DecidableEq K] (key : K)
    (d : List (Entry K V)) :
    keysOf (eraseKey key d) = (keysOf d).filter (fun x => x ≠ key) := by
  induction d with
  | nil => rfl
  | cons e tl ih =>
      simp only [eraseKey, keysOf] at ih ⊢
      by_cases h : e.1 = key
      · rw [List.filter_cons_of_neg (by simp [h]), List.map_cons,
          List.filter_cons_of_neg (by simp [h]), ih]
      · rw [List.filter_cons_of_pos (by simp [h]), List.map_cons, List.map_cons,
          List.filter_cons_of_pos (by simp [h]), ih]

theorem keysOf_append {K V : Type} (d1 d2 : List (Entry K V)) :
    keysOf (d1 ++ d2) = keysOf d1 ++ keysOf d2 := by
  simp [keysOf]

theorem length_keysOf {K V : Type} (d : List (Entry K V)) :
    (keysOf d).length = d.length := by
  simp [keysOf]

theorem eraseKey_eq_self {K V : Type} [DecidableEq K] (key : K)
    (d : List (Entry K V)) (h : containsKey key d = false) :
    eraseKey key d = d := by
  rw [eraseKey, List.filter_eq_self]
  intro e he
  simpa using (containsKey_eq_false key d).mp h e he

theorem dictSet_of_not_contains {K V : Type} [DecidableEq K] (key : K) (v : V)
    (t : Int) (d : List (Entry K V)) (h : containsKey key d = false) :
    dictSet key v t d = d ++ [(key, v, t)] := by
  simp [dictSet, h]

theorem dictSet_append_key {K V : Type} [DecidableEq K] (key : K) (v v0 : V)
    (t t0 : Int) (l : List (Entry K V)) (h : containsKey key l = false) :
    dictSet key v t (l ++ [(key, v0, t0)]) = l ++ [(key, v, t)] := by
  have hc : containsKey key (l ++ [(key, v0, t0)]) = true := by
    rw [containsKey_iff_mem, keysOf_append]
    simp [keysOf]
  rw [dictSet, if_pos hc, List.map_append]
  have h1 : l.map (fun e => if e.1 = key then (key, v, t) else e) = l := by
    conv_rhs => rw [← List.map_id l]
    apply List.map_congr_left
    intro e he
    have hne : e.1 ≠ key := (containsKey_eq_false key l).mp h e he
    simp [hne]
  simp [h1]

theorem lookupEntry_dictSet_self {K V : Type} [DecidableEq K] (key : K) (v : V)
    (t : Int) (d : List (Entry K V)) :
    lookupEntry key (dictSet key v t d) = some (v, t) := by
  rw [dictSet]
  by_cases h : containsKey key d = true
  · rw [if_pos h]
    induction d with
    | nil => simp [containsKey, lookupEntry] at h
    | cons e tl ih =>
        by_cases he : e.1 = key
        · simp [lookupEntry, List.find?_cons, he]
        · have htl : containsKey key tl = true := by
            rcases (containsKey_iff_mem key (e :: tl)).mp h with hm
            simp [keysOf, he] at hm
            rcases hm with h1 | h2
            · exact absurd h1.symm he
            · exact (containsKey_iff_mem key tl).mpr (by simpa [keysOf] using h2)
          simpa [lookupEntry, List.find?_cons, he] using ih htl
  · rw [if_neg h]
    have h0 : containsKey key d = false := by
      cases hc : containsKey key d
      · rfl
      · exact absurd hc h
    have h1 : lookupEntry key d = none := by
      have := h0
      simp only [containsKey, Option.not_isSome, Option.isNone_iff_eq_none,
        Bool.not_eq_true] at this
      cases hl : lookupEntry key d
      · rfl
      · rw [hl] at this; cases this
    simp only [lookupEntry] at h1 ⊢
    rw [List.find?_append]
    simp only [Option.map_eq_none'] at h1
    rw [h1]
    simp [List.find?_cons]

theorem containsKey_eraseKey_self {K V : Type} [DecidableEq K] (key : K)
    (d : List (Entry K V)) :
    containsKey key (eraseKey key d) = false := by
  simp [containsKey, lookupEntry_eraseKey_self]

theorem length_eraseKey_lt {K V : Type} [DecidableEq K] (key : K)
    (d : List (Entry K V)) (h : containsKey key d = true) :
    (eraseKey key d).length < d.length := by
  rcases List.mem_map.mp ((containsKey_iff_mem key d).mp h) with ⟨e, he, hk⟩
  rw [eraseKey]
  apply List.length_filter_lt_length_iff_exists.mpr
  exact ⟨e, he, by simp [hk]⟩

theorem length_dictSet_present {K V : Type} [DecidableEq K] (key : K) (v : V)
    (t : Int) (d : List (Entry K V)) (h : containsKey key d = true) :
    (dictSet key v t d).length = d.length := by
  simp [dictSet, h]

theorem length_dictSet_absent {K V : Type} [DecidableEq K] (key : K) (v : V)
    (t : Int) (d : List (Entry K V)) (h : containsKey key d = false) :
    (dictSet key v t d).length = d.length + 1 := by
  simp [dictSet, h]

theorem moveToEnd_eq {K V : Type} [DecidableEq K] (key : K) (vt : V × Int)
    (d : List (Entry K V)) (h : lookupEntry key d = some vt) :
    moveToEnd key d = eraseKey key d ++ [(key, vt.1, vt.2)] := by
  simp [moveToEnd, h]

theorem LRUCache.setItem_present_eq {K V : Type} [DecidableEq K]
    (c : LRUCache K V) (key : K) (v : V) (t : Int) (vt : V × Int)
    (h : lookupEntry key c.data = some vt) :
    c.setItem key v t = some { c with data := eraseKey key c.data ++ [(key, v, t)] } := by
  have hc : containsKey key c.data = true := by simp [containsKey, h]
  rw [LRUCache.setItem, if_pos hc, moveToEnd_eq key vt c.data h,
    dictSet_append_key key v vt.1 t vt.2 _ (containsKey_eraseKey_self key c.data)]

theorem LRUCache.setItem_isSome {K V : Type} [DecidableEq K] (c : LRUCache K V)
    (key : K) (v : V) (t : Int) (h : 0 < c.max_size) :
    (c.setItem key v t).isSome = true := by
  rw [LRUCache.setItem]
  by_cases hc : containsKey key c.data = true
  · simp [hc]
  · rw [if_neg hc]
    by_cases hl : (c.data.length : Int) ≥ c.max_size
    · rw [if_pos hl]
      cases hd : c.data with
      | nil =>
          rw [hd] at hl
          simp at hl
          omega
      | cons e rest => simp
    · simp [hl]

theorem LRUCache.setItem_lookup {K V : Type} [DecidableEq K] (c c2 : LRUCache K V)
    (key : K) (v : V) (t : Int) (h : c.setItem key v t = some c2) :
    lookupEntry key c2.data = some (v, t) := by
  rw [LRUCache.setItem] at h
  by_cases hc : containsKey key c.data = true
  · rw [if_pos hc] at h
    injection h with h2
    rw [← h2]
    exact lookupEntry_dictSet_self key v t _
  · rw [if_neg hc] at h
    by_cases hl : (c.data.length : Int) ≥ c.max_size
    · rw [if_pos hl] at h
      cases hd : c.data with
      | nil => rw [hd] at h; cases h
      | cons e rest =>
          rw [hd] at h
          injection h with h2
          rw [← h2]
          exact lookupEntry_dictSet_self key v t rest
    · rw [if_neg hl] at h
      injection h with h2
      rw [← h2]
      exact lookupEntry_dictSet_self key v t c.data

/-- Claim C2: TTLCache get returns the stored value exactly when the key is
present and now - timestamp ≤ ttl at the moment of the check; a present but
expired key is removed and the call fails with KeyError (NotFound); an absent
key fails with KeyError; hence every returned value comes from an entry whose
age is within ttl, and the defaulting variant returns the default in both
failure cases. -/
theorem ttl_get_spec {K V : Type} [DecidableEq K] (c : TTLCache K V) (key : K)
    (now : Int) :
    (∀ v ts, lookupEntry key c.data = some (v, ts) → now - ts ≤ c.ttl →
        c.getItem key now = (some v, c)) ∧
    (∀ v ts, lookupEntry key c.data = some (v, ts) → ¬ (now - ts ≤ c.ttl) →
        c.getItem key now = (none, { c with data := eraseKey key c.data })) ∧
    (lookupEntry key c.data = none → c.getItem key now = (none, c)) ∧
    (∀ v, (c.getItem key now).1 = some v →
        ∃ ts, lookupEntry key c.data = some (v, ts) ∧ now - ts ≤ c.ttl) ∧
    (∀ dflt, (c.getItem key now).1 = none → (c.get key dflt now).1 = dflt) := by
  refine ⟨?_, ?_, ?_, ?_, ?_⟩
  · intro v ts h hf
    simp [TTLCache.getItem, h, hf]
  · intro v ts h hf
    simp [TTLCache.getItem, h, hf]
  · intro h
    simp [TTLCache.getItem, h]
  · intro v hv
    rcases hl : lookupEntry key c.data with _ | ⟨v1, ts⟩
    · simp [TTLCache.getItem, hl] at hv
    · by_cases hf : now - ts ≤ c.ttl
      · simp only [TTLCache.getItem, hl, hf, if_pos] at hv
        simp only [Option.some.injEq] at hv
        refine ⟨ts, ?_, hf⟩
        subst hv
        rfl
      · simp [TTLCache.getItem, hl, hf] at hv
  · intro dflt hv
    rcases hg : c.getItem key now with ⟨o, c2⟩
    rw [hg] at hv
    simp only at hv
    rw [hv] at hg
    simp [TTLCache.get, hg]

/-- Witness for claim C2 at a concrete cache: key 1 set at time 0, read at
time 3 with ttl 10. -/
theorem ttl_get_spec_witness :
    lookupEntry 1 ((TTLCache.init Nat Nat 10).setItem 1 5 0).data = some (5, 0) ∧
    (3 - 0 ≤ ((TTLCache.init Nat Nat 10).setItem 1 5 0).ttl) ∧
    ((TTLCache.init Nat Nat 10).setItem 1 5 0).getItem 1 3 =
      (some 5, (TTLCache.init Nat Nat 10).setItem 1 5 0) :=
  ⟨by decide, by decide,
    (ttl_get_spec ((TTLCache.init Nat Nat 10).setItem 1 5 0) 1 3).1 5 0
      (by decide) (by decide)⟩

/-- Claim C6: TTLCache set on an already present key overwrites the value and
resets the timestamp to the current time, so after a second set at t1 the new
value stays retrievable for a full ttl window measured from t1. -/
theorem ttl_set_refreshes {K V : Type} [DecidableEq K] (c : TTLCache K V)
    (key : K) (v : V) (now : Int) :
    lookupEntry key (c.setItem key v now).data = some (v, now) ∧
    (∀ (v2 : V) (t1 t2 : Int), t2 - t1 ≤ c.ttl →
        (((c.setItem key v now).setItem key v2 t1).getItem key t2).1 = some v2) := by
  constructor
  · exact lookupEntry_dictSet_self key v now c.data
  · intro v2 t1 t2 h
    have hl : lookupEntry key ((c.setItem key v now).setItem key v2 t1).data
        = some (v2, t1) := lookupEntry_dictSet_self key v2 t1 _
    have httl : ((c.setItem key v now).setItem key v2 t1).ttl = c.ttl := rfl
    simp only [TTLCache.getItem, hl, httl]
    rw [if_pos h]

/-- Witness for claim C6: set key 1 to 5 at time 0, re-set it to 7 at time 20,
read at time 29 with ttl 10 (a full window from the second set). -/
theorem ttl_set_refreshes_witness :
    ((29 : Int) - 20 ≤ (TTLCache.init Nat Nat 10).ttl) ∧
    ((((TTLCache.init Nat Nat 10).setItem 1 5 0).setItem 1 7 20).getItem 1 29).1
      = some 7 :=
  ⟨by decide, (ttl_set_refreshes (TTLCache.init Nat Nat 10) 1 5 0).2 7 20 29 (by decide)⟩

/-- Claim C7: TTLCache delete succeeds and removes the entry exactly when the
key is present in the underlying store; the success test never consults the
clock, so it also covers entries that are already expired; a missing key
fails with KeyError (NotFound); after a successful delete, contains is false. -/
theorem ttl_delete_spec {K V : Type} [DecidableEq K] (c : TTLCache K V)
    (key : K) (now : Int) :
    (containsKey key c.data = true →
        c.delItem key = some { c with data := eraseKey key c.data }) ∧
    (containsKey key c.data = false → c.delItem key = none) ∧
    (∀ c2, c.delItem key = some c2 →
        containsKey key c2.data = false ∧ (c2.containsCheck key now).1 = false) := by
  refine ⟨?_, ?_, ?_⟩
  · intro h
    simp [TTLCache.delItem, h]
  · intro h
    simp [TTLCache.delItem, h]
  · intro c2 h
    rw [TTLCache.delItem] at h
    by_cases hc : containsKey key c.data = true
    · rw [if_pos hc] at h
      injection h with h2
      rw [← h2]
      constructor
      · exact containsKey_eraseKey_self key c.data
      · simp [TTLCache.containsCheck, lookupEntry_eraseKey_self]
    · rw [if_neg hc] at h
      cases h

/-- Witness for claim C7: delete key 1 from a store where it is present but
already expired (set at time 0, deleted as seen from time 100, ttl 10). -/
theorem ttl_delete_spec_witness :
    containsKey 1 ((TTLCache.init Nat Nat 10).setItem 1 5 0).data = true ∧
    ((TTLCache.init Nat Nat 10).setItem 1 5 0).delItem 1 =
      some { (TTLCache.init Nat Nat 10).setItem 1 5 0 with
             data := eraseKey 1 ((TTLCache.init Nat Nat 10).setItem 1 5 0).data } :=
  ⟨by decide,
    (ttl_delete_spec ((TTLCache.init Nat Nat 10).setItem 1 5 0) 1 100).1 (by decide)⟩

theorem LRUCache.setItem_max_size {K V : Type} [DecidableEq K]
    (c c2 : LRUCache K V) (key : K) (v : V) (t : Int)
    (h : c.setItem key v t = some c2) : c2.max_size = c.max_size := by
  rw [LRUCache.setItem] at h
  by_cases hc : containsKey key c.data = true
  · rw [if_pos hc] at h
    injection h with h2
    rw [← h2]
  · rw [if_neg hc] at h
    by_cases hl : (c.data.length : Int) ≥ c.max_size
    · rw [if_pos hl] at h
      cases hd : c.data with
      | nil => rw [hd] at h; cases h
      | cons e rest =>
          rw [hd] at h
          injection h with h2
          rw [← h2]
    · rw [if_neg hl] at h
      injection h with h2
      rw [← h2]

/-- Claim C9: for both caches, set(k, v) immediately followed by get(k)
returns exactly v.  For the LRU cache the positive capacity hypothesis rules
out the degenerate re-insertion eviction, so no capacity eviction of k can
occur between the two calls; for the TTL cache the hypothesis says the read
happens within the ttl window, so no expiry can occur. -/
theorem round_trip {K V : Type} [DecidableEq K] (cL : LRUCache K V)
    (cT : TTLCache K V) (k : K) (v : V) (t t2 : Int) :
    (0 < cL.max_size → ∀ c2, cL.setItem k v t = some c2 →
        (c2.getItem k t2).1 = some v) ∧
    (t2 - t ≤ cT.ttl → ((cT.setItem k v t).getItem k t2).1 = some v) := by
  constructor
  · intro hpos c2 hset
    have hlook : lookupEntry k c2.data = some (v, t) :=
      LRUCache.setItem_lookup cL c2 k v t hset
    have hms : c2.max_size = cL.max_size := LRUCache.setItem_max_size cL c2 k v t hset
    have hsome : (({ c2 with data := eraseKey k c2.data } : LRUCache K V).setItem
        k v t2).isSome = true := by
      apply LRUCache.setItem_isSome
      simpa [hms] using hpos
    rcases hs : ({ c2 with data := eraseKey k c2.data } : LRUCache K V).setItem
        k v t2 with _ | c3
    · rw [hs] at hsome
      cases hsome
    · simp only [LRUCache.getItem, hlook, hs]
  · intro hfresh
    have hl : lookupEntry k (cT.setItem k v t).data = some (v, t) :=
      lookupEntry_dictSet_self k v t cT.data
    have httl : (cT.setItem k v t).ttl = cT.ttl := rfl
    simp only [TTLCache.getItem, hl, httl]
    rw [if_pos hfresh]

/-- Witness for claim C9: key 1 set to 9 at time 0 and read at time 5, in an
LRU cache of capacity 2 and a TTL cache with ttl 10. -/
theorem round_trip_witness :
    (0 < (LRUCache.init Nat Nat 2).max_size) ∧
    ((LRUCache.init Nat Nat 2).setItem 1 9 0 = some (LRUCache.mk 2 [(1, 9, 0)])) ∧
    (((LRUCache.mk 2 [(1, 9, 0)]).getItem 1 5).1 = some 9) ∧
    ((5 : Int) - 0 ≤ (TTLCache.init Nat Nat 10).ttl) ∧
    ((((TTLCache.init Nat Nat 10).setItem 1 9 0).getItem 1 5).1 = some 9) :=
  ⟨by decide, by decide,
   (round_trip (LRUCache.init Nat Nat 2) (TTLCache.init Nat Nat 10) 1 9 0 5).1
     (by decide) (LRUCache.mk 2 [(1, 9, 0)]) (by decide),
   by decide,
   (round_trip (LRUCache.init Nat Nat 2) (TTLCache.init Nat Nat 10) 1 9 0 5).2
     (by decide)⟩

/-- Claim C8 counterexample: a cache constructed with max_size 0 is reachable
by construction (the source validates nothing), and set fails on it with a
KeyError raised by popitem on the empty store, so set is not total over all
constructible caches. -/
theorem lru_set_total_counterexample :
    (LRUCache.init Nat Nat 0).setItem 1 2 0 = none := by decide

/-- Claim C8 as amended: on every cache whose max_size is at least 1 - in
particular on every state reachable from a cache constructed with positive
max_size - set always succeeds, for every key and value. -/
theorem lru_set_total_amended {K V : Type} [DecidableEq K] (c : LRUCache K V)
    (key : K) (v : V) (t : Int) (h : 0 < c.max_size) :
    ∃ c2, c.setItem key v t = some c2 := by
  have hsome := LRUCache.setItem_isSome c key v t h
  rcases hs : c.setItem key v t with _ | c2
  · rw [hs] at hsome
    cases hsome
  · exact ⟨c2, rfl⟩

/-- Witness for the amended claim C8 at a concrete cache of capacity 1. -/
theorem lru_set_total_amended_witness :
    (0 < (LRUCache.init Nat Nat 1).max_size) ∧
    (∃ c2, (LRUCache.init Nat Nat 1).setItem 1 2 0 = some c2) :=
  ⟨by decide, lru_set_total_amended (LRUCache.init Nat Nat 1) 1 2 0 (by decide)⟩

/-- Claim C3 counterexample: construction with non-positive parameters does
not fail fast; it produces caches whose operations run degenerately.  An
LRUCache with max_size 0 is built and set then raises; a TTLCache with
ttl -1 is built, stores an entry, and expires it by the very instant it was
inserted. -/
theorem construction_counterexample :
    ((LRUCache.init Nat Nat 0).max_size = 0 ∧
      (LRUCache.init Nat Nat 0).setItem 1 2 0 = none) ∧
    ((TTLCache.init Nat Nat (-1)).ttl = -1 ∧
      ((TTLCache.init Nat Nat (-1)).setItem 1 2 0).data = [(1, 2, 0)] ∧
      (((TTLCache.init Nat Nat (-1)).setItem 1 2 0).getItem 1 0).1 = none) := by
  decide

/-- Claim C3 as amended: both constructors are total and store their argument
unvalidated; with non-positive parameters the resulting caches are degenerate
but constructed: an LRUCache with max_size ≤ 0 fails on the first set into an
empty store, and a TTLCache with ttl ≤ 0 never returns an entry to a strictly
later read. -/
theorem construction_unvalidated {K V : Type} [DecidableEq K] (ms ttl : Int)
    (k : K) (v : V) (t t2 : Int) :
    ((LRUCache.init K V ms).max_size = ms ∧ (LRUCache.init K V ms).data = []) ∧
    ((TTLCache.init K V ttl).ttl = ttl ∧ (TTLCache.init K V ttl).data = []) ∧
    (ms ≤ 0 → (LRUCache.init K V ms).setItem k v t = none) ∧
    (ttl ≤ 0 → t < t2 →
      (((TTLCache.init K V ttl).setItem k v t).getItem k t2).1 = none) := by
  refine ⟨⟨rfl, rfl⟩, ⟨rfl, rfl⟩, ?_, ?_⟩
  · intro hms
    have hc : containsKey k (LRUCache.init K V ms).data = false := rfl
    rw [LRUCache.setItem, hc]
    have hl : ((LRUCache.init K V ms).data.length : Int) ≥ (LRUCache.init K V ms).max_size := by
      show (0 : Int) ≥ ms
      omega
    simp only [Bool.false_eq_true, if_false, if_pos hl]
    rfl
  · intro httl hlt
    have hl : lookupEntry k ((TTLCache.init K V ttl).setItem k v t).data
        = some (v, t) := lookupEntry_dictSet_self k v t (TTLCache.init K V ttl).data
    have ht : ((TTLCache.init K V ttl).setItem k v t).ttl = ttl := rfl
    have hcond : ¬ (t2 - t ≤ ttl) := by omega
    simp only [TTLCache.getItem, hl, ht, if_neg hcond]

/-- Witness for the amended claim C3 at max_size -2 and ttl -3. -/
theorem construction_unvalidated_witness :
    ((-2 : Int) ≤ 0) ∧ ((-3 : Int) ≤ 0) ∧ ((0 : Int) < 1) ∧
    ((LRUCache.init Nat Nat (-2)).setItem 1 2 0 = none) ∧
    ((((TTLCache.init Nat Nat (-3)).setItem 1 2 0).getItem 1 1).1 = none) :=
  ⟨by decide, by decide, by decide,
   (construction_unvalidated (-2) (-3) 1 2 0 1).2.2.1 (by decide),
   (construction_unvalidated (K := Nat) (V := Nat) (-2) (-3) 1 2 0 1).2.2.2
     (by decide) (by decide)⟩

theorem filter_ne_length_of_nodup {K : Type} [DecidableEq K] (l : List K)
    (k : K) (hnd : l.Nodup) (hmem : k ∈ l) :
    (l.filter (fun x => x ≠ k)).length + 1 = l.length := by
  rcases List.append_of_mem hmem with ⟨s, t, rfl⟩
  rw [List.nodup_append] at hnd
  have hks : k ∉ s := fun hks => hnd.2.2 hks (List.mem_cons_self k t)
  have hkt : k ∉ t := (List.nodup_cons.mp hnd.2.1).1
  rw [List.filter_append, List.filter_cons_of_neg (by simp)]
  rw [List.filter_eq_self.mpr (fun x hx => by
        simp only [ne_eq, decide_eq_true_eq]
        exact fun he => hks (he ▸ hx)),
      List.filter_eq_self.mpr (fun x hx => by
        simp only [ne_eq, decide_eq_true_eq]
        exact fun he => hkt (he ▸ hx))]
  simp [List.length_append]
  omega

theorem eraseKey_length_of_nodup {K V : Type} [DecidableEq K] (key : K)
    (d : List (Entry K V)) (hnd : (keysOf d).Nodup)
    (hc : containsKey key d = true) :
    (eraseKey key d).length + 1 = d.length := by
  have h1 : (eraseKey key d).length = ((keysOf d).filter (fun x => x ≠ key)).length := by
    rw [← keysOf_eraseKey]
    exact (length_keysOf (eraseKey key d)).symm
  rw [h1, ← length_keysOf d]
  exact filter_ne_length_of_nodup (keysOf d) key hnd
    ((containsKey_iff_mem key d).mp hc)

/-- Mutating operation alphabet for runs over an LRUCache. -/
inductive LOp (K V : Type) where
  | set (key : K) (value : V)
  | get (key : K)
  | del (key : K)
deriving DecidableEq

/-- Whether an operation is a delete. -/
def LOp.isDel {K V : Type} : LOp K V → Bool
  | .del _ => true
  | _ => false

/-- One step of a run: apply the operation at the given clock reading.  A
raised KeyError leaves the state exactly as the source leaves it.  The second
component lists the key the operation touched: a set always touches its key,
a get or delete touches its key only when it succeeds. -/
def lruStep {K V : Type} [DecidableEq K] (c : LRUCache K V) (op : LOp K V)
    (t : Int) : LRUCache K V × List K :=
  match op with
  | .set k v =>
      match c.setItem k v t with
      | some c2 => (c2, [k])
      | none => (c, [])
  | .get k =>
      let r := c.getItem k t
      (r.2, if r.1.isSome then [k] else [])
  | .del k =>
      match c.delItem k with
      | some c2 => (c2, [k])
      | none => (c, [])

/-- Run a list of timed operations from a state, collecting touched keys in
order. -/
def lruRun {K V : Type} [DecidableEq K] :
    LRUCache K V → List (LOp K V × Int) → LRUCache K V × List K
  | c, [] => (c, [])
  | c, p :: ops =>
      let s := lruStep c p.1 p.2
      let r := lruRun s.1 ops
      (r.1, s.2 ++ r.2)

/-- Fold one touched key into a recency list: drop it and append it at the
most recent end. -/
def touchFold {K : Type} [DecidableEq K] (l : List K) (k : K) : List K :=
  l.filter (fun x => x ≠ k) ++ [k]

/-- The distinct keys of a touch history in recency order, oldest first. -/
def dedupLast {K : Type} [DecidableEq K] (touches : List K) : List K :=
  touches.foldl touchFold []

/-- The last n elements of a list. -/
def lastN {K : Type} (n : Nat) (l : List K) : List K :=
  l.drop (l.length - n)

/-- Claim C4: eviction always removes the entry at the LRU front, and both
get and set count as use.  A set on a present key rewrites the entry at the
MRU end without changing the number of entries (stores have distinct keys); a
set on an absent key at capacity drops the front entry; the two capacity-2
scenarios of the claim play out as stated, with keys a=1, b=2, c=3. -/
theorem lru_eviction_policy {K V : Type} [DecidableEq K] (c : LRUCache K V)
    (key : K) (v : V) (t : Int) :
    (∀ vt, lookupEntry key c.data = some vt →
        c.setItem key v t = some { c with data := eraseKey key c.data ++ [(key, v, t)] }) ∧
    ((keysOf c.data).Nodup → containsKey key c.data = true →
        ∀ c2, c.setItem key v t = some c2 → c2.data.length = c.data.length) ∧
    (containsKey key c.data = false → (c.data.length : Int) ≥ c.max_size →
        ∀ e rest, c.data = e :: rest →
        c.setItem key v t = some { c with data := rest ++ [(key, v, t)] }) ∧
    (keysOf (lruRun (LRUCache.init Nat Nat 2)
        [(.set 1 1, 0), (.set 2 2, 1), (.get 1, 2), (.set 3 3, 3)]).1.data
      = [1, 3]) ∧
    (keysOf (lruRun (LRUCache.init Nat Nat 2)
        [(.set 1 1, 0), (.set 2 2, 1), (.set 3 3, 2)]).1.data
      = [2, 3]) := by
  refine ⟨?_, ?_, ?_, by decide, by decide⟩
  · intro vt h
    exact LRUCache.setItem_present_eq c key v t vt h
  · intro hnd hc c2 hset
    rcases hl : lookupEntry key c.data with _ | vt
    · simp only [containsKey, hl, Option.isSome_none] at hc
      cases hc
    · rw [LRUCache.setItem_present_eq c key v t vt hl] at hset
      injection hset with h2
      rw [← h2]
      show (eraseKey key c.data ++ [(key, v, t)]).length = c.data.length
      rw [List.length_append]
      have hlen := eraseKey_length_of_nodup key c.data hnd hc
      simp only [List.length_cons, List.length_nil]
      omega
  · intro hc hlen e rest hd
    have hrest : containsKey key rest = false := by
      rw [containsKey_eq_false] at hc ⊢
      intro e2 he2
      exact hc e2 (by rw [hd]; exact List.mem_cons_of_mem e he2)
    rw [LRUCache.setItem, if_neg (by simp [hc]), if_pos hlen, hd]
    show some { c with data := dictSet key v t rest } = _
    rw [dictSet_of_not_contains key v t rest hrest]

/-- Witness for claim C4: a set on the present key 1 in a two-entry store
with distinct keys keeps the size at 2 and moves key 1 to the MRU end. -/
theorem lru_eviction_policy_witness :
    (lookupEntry 1 (LRUCache.mk 2 [(1, 5, 0), (2, 6, 1)]).data = some (5, 0)) ∧
    ((LRUCache.mk 2 [(1, 5, 0), (2, 6, 1)]).setItem 1 7 4 =
      some (LRUCache.mk 2 [(2, 6, 1), (1, 7, 4)])) :=
  ⟨by decide, by
    have h := (lru_eviction_policy (LRUCache.mk 2 [(1, 5, 0), (2, 6, 1)]) 1 7 4).1
      (5, 0) (by decide)
    rw [h]
    decide⟩

theorem foldl_eraseKey_eq_filter {K V : Type} [DecidableEq K] (keys : List K)
    (d : List (Entry K V)) :
    keys.foldl (fun d2 k => eraseKey k d2) d = d.filter (fun e => e.1 ∉ keys) := by
  induction keys generalizing d with
  | nil => simp
  | cons k ks ih =>
      rw [List.foldl_cons, ih, eraseKey, List.filter_filter]
      apply List.filter_congr
      intro e _
      by_cases h1 : e.1 = k <;> by_cases h2 : e.1 ∈ ks <;> simp [h1, h2]

/-- On a store with distinct keys, the sweep removes exactly the expired
entries, leaving the fresh ones (and their values and timestamps) unchanged,
all judged against the single clock sample taken at the start of the sweep. -/
theorem TTLCache.expireAll_data {K V : Type} [DecidableEq K] (c : TTLCache K V)
    (now : Int) (h : (keysOf c.data).Nodup) :
    (c.expireAll now).data = c.data.filter (fun e => now - e.2.2 ≤ c.ttl) := by
  show (keysOf (c.data.filter (fun e => now - e.2.2 > c.ttl))).foldl
      (fun d2 k => eraseKey k d2) c.data = _
  rw [foldl_eraseKey_eq_filter]
  apply List.filter_congr
  intro e he
  by_cases hbad : now - e.2.2 > c.ttl
  · have hmem : e.1 ∈ keysOf (c.data.filter (fun e => now - e.2.2 > c.ttl)) :=
      List.mem_map.mpr ⟨e, List.mem_filter.mpr ⟨he, by simp [hbad]⟩, rfl⟩
    simp [hmem, hbad, Int.not_le.mpr hbad]
  · have hmem : e.1 ∉ keysOf (c.data.filter (fun e => now - e.2.2 > c.ttl)) := by
      intro hmem
      rcases List.mem_map.mp hmem with ⟨e2, he2, hk⟩
      have he2d : e2 ∈ c.data := (List.mem_filter.mp he2).1
      have hbad2 : now - e2.2.2 > c.ttl := by
        have h2 := (List.mem_filter.mp he2).2
        simpa using h2
      have heq : e2 = e :=
        List.inj_on_of_nodup_map (by simpa [keysOf] using h) he2d he hk
      rw [heq] at hbad2
      exact hbad hbad2
    simp [hmem, Int.not_lt.mp hbad]

/-- Claim C5: size performs a full sweep removing exactly the entries whose
age exceeds ttl against one clock sample, leaving every unexpired entry
unchanged, then returns the count of the survivors; iterate and describe do
the same sweep first, so none of them ever reports an expired entry. -/
theorem ttl_sweep_spec {K V : Type} [DecidableEq K] (c : TTLCache K V)
    (now : Int) (kr : K → String) (vr : V → String)
    (h : (keysOf c.data).Nodup) :
    (c.expireAll now).data = c.data.filter (fun e => now - e.2.2 ≤ c.ttl) ∧
    c.len now = ((c.data.filter (fun e => now - e.2.2 ≤ c.ttl)).length,
        c.expireAll now) ∧
    c.iterKeys now = (keysOf (c.data.filter (fun e => now - e.2.2 ≤ c.ttl)),
        c.expireAll now) ∧
    c.reprS kr vr now =
      ("TTLCache(\x7b " ++ String.intercalate ", "
          ((c.data.filter (fun e => now - e.2.2 ≤ c.ttl)).map (entryRender kr vr))
        ++ " \x7d)", c.expireAll now) := by
  have hd := TTLCache.expireAll_data c now h
  refine ⟨hd, ?_, ?_, ?_⟩
  · rw [TTLCache.len, hd]
  · rw [TTLCache.iterKeys, hd]
  · rw [TTLCache.reprS, hd]

/-- Witness for claim C5: two entries set at times 0 and 3, swept at time 12
with ttl 10; the first has expired, the second survives. -/
theorem ttl_sweep_spec_witness :
    (keysOf (((TTLCache.init Nat Nat 10).setItem 1 5 0).setItem 2 6 3).data).Nodup ∧
    ((((TTLCache.init Nat Nat 10).setItem 1 5 0).setItem 2 6 3).len 12).1 = 1 ∧
    ((((TTLCache.init Nat Nat 10).setItem 1 5 0).setItem 2 6 3).expireAll 12).data
      = [(2, 6, 3)] :=
  ⟨by decide, by
    have h := (ttl_sweep_spec (((TTLCache.init Nat Nat 10).setItem 1 5 0).setItem 2 6 3)
      12 (fun _ => "") (fun _ => "") (by decide)).2.1
    rw [h]
    decide, by
    have h := (ttl_sweep_spec (((TTLCache.init Nat Nat 10).setItem 1 5 0).setItem 2 6 3)
      12 (fun _ => "") (fun _ => "") (by decide)).1
    rw [h]
    decide⟩

/-! Projection lemmas for claim C10: every observable of an LRUCache is a
function of the clock-free projection of its store. -/

/-- Lookup of the value alone, over the clock-free projection. -/
def lookupPV {K V : Type} [DecidableEq K] (key : K) (pl : List (K × V)) :
    Option V :=
  (pl.find? (fun e => e.1 = key)).map (fun e => e.2)

theorem lookupPV_projL {K V : Type} [DecidableEq K] (key : K)
    (d : List (Entry K V)) :
    lookupPV key (projL d) = (lookupEntry key d).map (fun vt => vt.1) := by
  simp only [lookupPV, projL, lookupEntry, List.find?_map, Option.map_map]
  rfl

theorem containsKey_proj {K V : Type} [DecidableEq K] (key : K)
    (d : List (Entry K V)) :
    containsKey key d = (lookupPV key (projL d)).isSome := by
  rw [containsKey, lookupPV_projL, Option.isSome_map']

theorem projL_length {K V : Type} (d : List (Entry K V)) :
    (projL d).length = d.length := by
  simp [projL]

theorem projL_append {K V : Type} (d1 d2 : List (Entry K V)) :
    projL (d1 ++ d2) = projL d1 ++ projL d2 := by
  simp [projL]

theorem keysOf_eq_projL {K V : Type} (d : List (Entry K V)) :
    keysOf d = (projL d).map (fun e => e.1) := by
  simp [keysOf, projL, List.map_map]

theorem projL_eraseKey {K V : Type} [DecidableEq K] (key : K)
    (d : List (Entry K V)) :
    projL (eraseKey key d) = (projL d).filter (fun e => e.1 ≠ key) := by
  induction d with
  | nil => rfl
  | cons e tl ih =>
      simp only [eraseKey, projL] at ih ⊢
      by_cases h : e.1 = key
      · rw [List.filter_cons_of_neg (by simp [h]), List.map_cons,
          List.filter_cons_of_neg (by simp [h]), ih]
      · rw [List.filter_cons_of_pos (by simp [h]), List.map_cons, List.map_cons,
          List.filter_cons_of_pos (by simp [h]), ih]

theorem render_eq_projL {K V : Type} (kr : K → String) (vr : V → String)
    (d : List (Entry K V)) :
    d.map (entryRender kr vr) = (projL d).map (fun e => kr e.1 ++ ": " ++ vr e.2) := by
  simp only [projL, List.map_map]
  rfl

theorem projL_dictSet {K V : Type} [DecidableEq K] (key : K) (v : V) (t : Int)
    (d : List (Entry K V)) :
    projL (dictSet key v t d) =
      if containsKey key d then
        (projL d).map (fun e => if e.1 = key then (key, v) else e)
      else
        projL d ++ [(key, v)] := by
  rw [dictSet]
  by_cases h : containsKey key d
  · rw [if_pos h, if_pos h]
    simp only [projL, List.map_map]
    apply List.map_congr_left
    intro e _
    by_cases he : e.1 = key <;> simp [he]
  · rw [if_neg h, if_neg h, projL_append]
    rfl

theorem projL_dictSet_of_proj {K V : Type} [DecidableEq K] (key : K) (v : V)
    (t1 t2 : Int) (d1 d2 : List (Entry K V)) (hp : projL d1 = projL d2) :
    projL (dictSet key v t1 d1) = projL (dictSet key v t2 d2) := by
  rw [projL_dictSet, projL_dictSet, containsKey_proj, containsKey_proj, hp]

theorem projL_moveToEnd_of_proj {K V : Type} [DecidableEq K] (key : K)
    (d1 d2 : List (Entry K V)) (hp : projL d1 = projL d2) :
    projL (moveToEnd key d1) = projL (moveToEnd key d2) := by
  have hv : (lookupEntry key d1).map (fun vt => vt.1)
      = (lookupEntry key d2).map (fun vt => vt.1) := by
    rw [← lookupPV_projL, ← lookupPV_projL, hp]
  rcases h1 : lookupEntry key d1 with _ | vt1
  · rcases h2 : lookupEntry key d2 with _ | vt2
    · simp [moveToEnd, h1, h2, hp]
    · rw [h1, h2] at hv
      simp at hv
  · rcases h2 : lookupEntry key d2 with _ | vt2
    · rw [h1, h2] at hv
      simp at hv
    · rw [h1, h2] at hv
      simp only [Option.map_some', Option.some.injEq] at hv
      simp only [moveToEnd, h1, h2, projL_append, projL_eraseKey, hp]
      simp [projL, hv]

theorem LRUCache.setItem_proj {K V : Type} [DecidableEq K]
    (c1 c2 : LRUCache K V) (key : K) (v : V) (t1 t2 : Int)
    (hms : c1.max_size = c2.max_size) (hp : projL c1.data = projL c2.data) :
    (c1.setItem key v t1 = none ∧ c2.setItem key v t2 = none) ∨
    (∃ d1 d2, c1.setItem key v t1 = some d1 ∧ c2.setItem key v t2 = some d2 ∧
      d1.max_size = d2.max_size ∧ projL d1.data = projL d2.data) := by
  have hc : containsKey key c1.data = containsKey key c2.data := by
    rw [containsKey_proj, containsKey_proj, hp]
  have hlen : c1.data.length = c2.data.length := by
    rw [← projL_length, hp, projL_length]
  by_cases h1 : containsKey key c1.data = true
  · have h1b : containsKey key c2.data = true := by rw [← hc]; exact h1
    rw [LRUCache.setItem, LRUCache.setItem, if_pos h1, if_pos h1b]
    right
    refine ⟨_, _, rfl, rfl, hms, ?_⟩
    exact projL_dictSet_of_proj key v t1 t2 _ _ (projL_moveToEnd_of_proj key _ _ hp)
  · have h1b : ¬ containsKey key c2.data = true := by rw [← hc]; exact h1
    by_cases h2 : (c1.data.length : Int) ≥ c1.max_size
    · have h2b : (c2.data.length : Int) ≥ c2.max_size := by
        rw [← hlen, ← hms]
        exact h2
      rw [LRUCache.setItem, LRUCache.setItem, if_neg h1, if_neg h1b,
        if_pos h2, if_pos h2b]
      cases hd1 : c1.data with
      | nil =>
          have : projL c2.data = [] := by rw [← hp, hd1]; rfl
          have hd2 : c2.data = [] := by
            cases hdd : c2.data
            · rfl
            · rw [hdd] at this; cases this
          rw [hd2]
          exact Or.inl ⟨rfl, rfl⟩
      | cons e1 r1 =>
          cases hd2 : c2.data with
          | nil =>
              rw [hd1, hd2] at hp
              cases hp
          | cons e2 r2 =>
              right
              refine ⟨_, _, rfl, rfl, hms, ?_⟩
              have hpr : projL r1 = projL r2 := by
                rw [hd1, hd2] at hp
                simp only [projL, List.map_cons, List.cons.injEq] at hp
                exact hp.2
              exact projL_dictSet_of_proj key v t1 t2 r1 r2 hpr
    · have h2b : ¬ (c2.data.length : Int) ≥ c2.max_size := by
        rw [← hlen, ← hms]
        exact h2
      rw [LRUCache.setItem, LRUCache.setItem, if_neg h1, if_neg h1b,
        if_neg h2, if_neg h2b]
      right
      exact ⟨_, _, rfl, rfl, hms, projL_dictSet_of_proj key v t1 t2 _ _ hp⟩

theorem LRUCache.getItem_proj {K V : Type} [DecidableEq K]
    (c1 c2 : LRUCache K V) (key : K) (t1 t2 : Int)
    (hms : c1.max_size = c2.max_size) (hp : projL c1.data = projL c2.data) :
    (c1.getItem key t1).1 = (c2.getItem key t2).1 ∧
    (c1.getItem key t1).2.max_size = (c2.getItem key t2).2.max_size ∧
    projL (c1.getItem key t1).2.data = projL (c2.getItem key t2).2.data := by
  have hv : (lookupEntry key c1.data).map (fun vt => vt.1)
      = (lookupEntry key c2.data).map (fun vt => vt.1) := by
    rw [← lookupPV_projL, ← lookupPV_projL, hp]
  rcases h1 : lookupEntry key c1.data with _ | vt1
  · rcases h2 : lookupEntry key c2.data with _ | vt2
    · simp [LRUCache.getItem, h1, h2, hms, hp]
    · rw [h1, h2] at hv
      simp at hv
  · rcases h2 : lookupEntry key c2.data with _ | vt2
    · rw [h1, h2] at hv
      simp at hv
    · rw [h1, h2] at hv
      simp only [Option.map_some', Option.some.injEq] at hv
      have hpp : projL (eraseKey key c1.data) = projL (eraseKey key c2.data) := by
        rw [projL_eraseKey, projL_eraseKey, hp]
      have hsp := LRUCache.setItem_proj
        { c1 with data := eraseKey key c1.data }
        { c2 with data := eraseKey key c2.data } key vt1.1 t1 t2 hms hpp
      rw [hv] at hsp
      simp only [LRUCache.getItem, h1, h2]
      rw [hv]
      rcases hsp with ⟨hn1, hn2⟩ | ⟨d1, d2, hs1, hs2, hm, hd⟩
      · rw [hn1, hn2]
        exact ⟨rfl, hms, hpp⟩
      · rw [hs1, hs2]
        exact ⟨rfl, hm, hd⟩

theorem LRUCache.delItem_proj {K V : Type} [DecidableEq K]
    (c1 c2 : LRUCache K V) (key : K)
    (hms : c1.max_size = c2.max_size) (hp : projL c1.data = projL c2.data) :
    (c1.delItem key = none ∧ c2.delItem key = none) ∨
    (∃ d1 d2, c1.delItem key = some d1 ∧ c2.delItem key = some d2 ∧
      d1.max_size = d2.max_size ∧ projL d1.data = projL d2.data) := by
  have hc : containsKey key c1.data = containsKey key c2.data := by
    rw [containsKey_proj, containsKey_proj, hp]
  by_cases h1 : containsKey key c1.data = true
  · have h1b : containsKey key c2.data = true := by rw [← hc]; exact h1
    rw [LRUCache.delItem, LRUCache.delItem, if_pos h1, if_pos h1b]
    right
    refine ⟨_, _, rfl, rfl, hms, ?_⟩
    rw [projL_eraseKey, projL_eraseKey, hp]
  · have h1b : ¬ containsKey key c2.data = true := by rw [← hc]; exact h1
    rw [LRUCache.delItem, LRUCache.delItem, if_neg h1, if_neg h1b]
    exact Or.inl ⟨rfl, rfl⟩

/-- The public operations of an LRUCache, for whole-interface runs. -/
inductive LQuery (K V : Type) where
  | set (key : K) (value : V)
  | get (key : K)
  | del (key : K)
  | size
  | iterate
  | describe
deriving DecidableEq

/-- What each operation returns to the caller: success or KeyError for the
mutators, the value or KeyError for get, the count, the key sequence in
recency order, and the repr rendering. -/
inductive LObs (K V : Type) where
  | done (ok : Bool)
  | value (v : Option V)
  | count (n : Nat)
  | keyList (l : List K)
  | render (s : String)
deriving DecidableEq

/-- One public operation applied at one clock reading, paired with what the
caller observes. -/
def lruQStep {K V : Type} [DecidableEq K] (kr : K → String) (vr : V → String)
    (c : LRUCache K V) (q : LQuery K V) (t : Int) : LObs K V × LRUCache K V :=
  match q with
  | .set k v =>
      match c.setItem k v t with
      | some c2 => (.done true, c2)
      | none => (.done false, c)
  | .get k =>
      let r := c.getItem k t
      (.value r.1, r.2)
  | .del k =>
      match c.delItem k with
      | some c2 => (.done true, c2)
      | none => (.done false, c)
  | .size => (.count c.size, c)
  | .iterate => (.keyList c.iterKeys, c)
  | .describe => (.render (c.reprS kr vr), c)

/-- Run a list of timed public operations, collecting the observations. -/
def lruQRun {K V : Type} [DecidableEq K] (kr : K → String) (vr : V → String) :
    LRUCache K V → List (LQuery K V × Int) → List (LObs K V) × LRUCache K V
  | c, [] => ([], c)
  | c, p :: qs =>
      let s := lruQStep kr vr c p.1 p.2
      let r := lruQRun kr vr s.2 qs
      (s.1 :: r.1, r.2)

theorem lruQStep_proj {K V : Type} [DecidableEq K] (kr : K → String)
    (vr : V → String) (c1 c2 : LRUCache K V) (q : LQuery K V) (t1 t2 : Int)
    (hms : c1.max_size = c2.max_size) (hp : projL c1.data = projL c2.data) :
    (lruQStep kr vr c1 q t1).1 = (lruQStep kr vr c2 q t2).1 ∧
    (lruQStep kr vr c1 q t1).2.max_size = (lruQStep kr vr c2 q t2).2.max_size ∧
    projL (lruQStep kr vr c1 q t1).2.data = projL (lruQStep kr vr c2 q t2).2.data := by
  cases q with
  | set k v =>
      rcases LRUCache.setItem_proj c1 c2 k v t1 t2 hms hp with
        ⟨hn1, hn2⟩ | ⟨d1, d2, hs1, hs2, hm, hd⟩
      · simp only [lruQStep, hn1, hn2]
        exact ⟨trivial, hms, hp⟩
      · simp only [lruQStep, hs1, hs2]
        exact ⟨trivial, hm, hd⟩
  | get k =>
      have h := LRUCache.getItem_proj c1 c2 k t1 t2 hms hp
      simp only [lruQStep]
      exact ⟨by rw [h.1], h.2.1, h.2.2⟩
  | del k =>
      rcases LRUCache.delItem_proj c1 c2 k hms hp with
        ⟨hn1, hn2⟩ | ⟨d1, d2, hs1, hs2, hm, hd⟩
      · simp only [lruQStep, hn1, hn2]
        exact ⟨trivial, hms, hp⟩
      · simp only [lruQStep, hs1, hs2]
        exact ⟨trivial, hm, hd⟩
  | size =>
      simp only [lruQStep, LRUCache.size]
      refine ⟨?_, hms, hp⟩
      rw [← projL_length, hp, projL_length]
  | iterate =>
      simp only [lruQStep, LRUCache.iterKeys]
      refine ⟨?_, hms, hp⟩
      rw [keysOf_eq_projL, keysOf_eq_projL, hp]
  | describe =>
      simp only [lruQStep, LRUCache.reprS]
      refine ⟨?_, hms, hp⟩
      rw [render_eq_projL, render_eq_projL, hp]

theorem lruQRun_proj {K V : Type} [DecidableEq K] (kr : K → String)
    (vr : V → String) (qs1 : List (LQuery K V × Int)) :
    ∀ (qs2 : List (LQuery K V × Int)) (c1 c2 : LRUCache K V),
    qs1.map (fun p => p.1) = qs2.map (fun p => p.1) →
    c1.max_size = c2.max_size → projL c1.data = projL c2.data →
    (lruQRun kr vr c1 qs1).1 = (lruQRun kr vr c2 qs2).1 ∧
    (lruQRun kr vr c1 qs1).2.max_size = (lruQRun kr vr c2 qs2).2.max_size ∧
    projL (lruQRun kr vr c1 qs1).2.data = projL (lruQRun kr vr c2 qs2).2.data := by
  induction qs1 with
  | nil =>
      intro qs2 c1 c2 hsame hms hp
      cases qs2 with
      | nil => exact ⟨rfl, hms, hp⟩
      | cons p2 ps2 => simp at hsame
  | cons p ps ih =>
      intro qs2 c1 c2 hsame hms hp
      cases qs2 with
      | nil => simp at hsame
      | cons p2 ps2 =>
          obtain ⟨q1, s1⟩ := p
          obtain ⟨q2, s2⟩ := p2
          simp only [List.map_cons, List.cons.injEq] at hsame
          obtain ⟨hq, hs⟩ := hsame
          subst hq
          have hstep := lruQStep_proj kr vr c1 c2 q1 s1 s2 hms hp
          have hrest := ih ps2 (lruQStep kr vr c1 q1 s1).2
            (lruQStep kr vr c2 q1 s2).2 hs hstep.2.1 hstep.2.2
          simp only [lruQRun]
          exact ⟨by rw [hstep.1, hrest.1], hrest.2.1, hrest.2.2⟩

/-- Claim C10: the observable behavior of an LRUCache is independent of the
clock.  Two runs of the same operation sequence from caches constructed with
the same max_size, under arbitrarily different clock readings, produce
identical observations for every operation (values, KeyError outcomes, sizes,
iteration order, repr renderings), and the final stores agree on keys and
values; the stored timestamps are never read by any operation. -/
theorem lru_clock_independent {K V : Type} [DecidableEq K] (kr : K → String)
    (vr : V → String) (n : Int) (qs1 qs2 : List (LQuery K V × Int))
    (hsame : qs1.map (fun p => p.1) = qs2.map (fun p => p.1)) :
    (lruQRun kr vr (LRUCache.init K V n) qs1).1
      = (lruQRun kr vr (LRUCache.init K V n) qs2).1 ∧
    projL (lruQRun kr vr (LRUCache.init K V n) qs1).2.data
      = projL (lruQRun kr vr (LRUCache.init K V n) qs2).2.data := by
  have h := lruQRun_proj kr vr qs1 qs2 (LRUCache.init K V n)
    (LRUCache.init K V n) hsame rfl rfl
  exact ⟨h.1, h.2.2⟩

/-- Witness for claim C10: the same four operations run under two very
different clocks produce the same observations. -/
theorem lru_clock_independent_witness :
    (([((LQuery.set 1 5 : LQuery Nat Nat), (0 : Int)), (.get 1, 1), (.size, 2),
        (.describe, 3)].map (fun p => p.1))
      = ([((LQuery.set 1 5 : LQuery Nat Nat), (100 : Int)), (.get 1, 250),
        (.size, 300), (.describe, 444)].map (fun p => p.1))) ∧
    ((lruQRun toString toString (LRUCache.init Nat Nat 2)
        [((LQuery.set 1 5 : LQuery Nat Nat), (0 : Int)), (.get 1, 1), (.size, 2),
          (.describe, 3)]).1
      = (lruQRun toString toString (LRUCache.init Nat Nat 2)
        [((LQuery.set 1 5 : LQuery Nat Nat), (100 : Int)), (.get 1, 250),
          (.size, 300), (.describe, 444)]).1) :=
  ⟨by decide,
   (lru_clock_independent toString toString 2 _ _ (by decide)).1⟩

/-! Recency-list lemmas for claim C1. -/

theorem lastN_of_le {K : Type} (n : Nat) (l : List K) (h : l.length ≤ n) :
    lastN n l = l := by
  simp [lastN, Nat.sub_eq_zero_of_le h]

theorem lastN_len {K : Type} (n : Nat) (l : List K) :
    (lastN n l).length = l.length - (l.length - n) := by
  simp [lastN]

theorem lastN_length_le {K : Type} (n : Nat) (l : List K) :
    (lastN n l).length ≤ n := by
  rw [lastN_len]
  omega

theorem lastN_nodup {K : Type} (n : Nat) (l : List K) (h : l.Nodup) :
    (lastN n l).Nodup :=
  (List.drop_sublist _ _).nodup h

theorem lastN_append_singleton {K : Type} (n : Nat) (hn : 1 ≤ n) (xs : List K)
    (k : K) : lastN n (xs ++ [k]) = lastN (n - 1) xs ++ [k] := by
  unfold lastN
  have h1 : (xs ++ [k]).length = xs.length + 1 := by simp
  rw [h1]
  have h2 : xs.length + 1 - n = xs.length - (n - 1) := by omega
  rw [h2, List.drop_append_of_le_length (by omega)]

theorem lastN_append_of_le {K : Type} (m : Nat) (xs ys : List K)
    (h : m ≤ ys.length) : lastN m (xs ++ ys) = lastN m ys := by
  unfold lastN
  have h1 : (xs ++ ys).length - m = xs.length + (ys.length - m) := by
    simp only [List.length_append]
    omega
  rw [h1, List.drop_append]

theorem lastN_append_exact {K : Type} (m : Nat) (xs ys : List K)
    (h : ys.length = m) : lastN m (xs ++ ys) = ys := by
  rw [lastN_append_of_le m xs ys (by omega), lastN_of_le m ys (by omega)]

theorem touchFold_nodup {K : Type} [DecidableEq K] (D : List K) (hD : D.Nodup)
    (k : K) : (touchFold D k).Nodup := by
  rw [touchFold, List.nodup_append]
  refine ⟨hD.filter _, List.nodup_singleton k, ?_⟩
  intro x hx
  simp only [List.mem_filter, ne_eq, decide_eq_true_eq] at hx
  simp [hx.2]

theorem lastN_touch_mem {K : Type} [DecidableEq K] (n : Nat) (hn : 1 ≤ n)
    (D : List K) (hD : D.Nodup) (k : K) (hk : k ∈ lastN n D) :
    (lastN n D).filter (fun x => x ≠ k) ++ [k] = lastN n (touchFold D k) := by
  rw [touchFold, lastN_append_singleton n hn _ k]
  congr 1
  have hdec : D.take (D.length - n) ++ lastN n D = D := List.take_append_drop _ D
  have hndPS : (D.take (D.length - n) ++ lastN n D).Nodup := by
    rw [hdec]
    exact hD
  rw [List.nodup_append] at hndPS
  have hkP : k ∉ D.take (D.length - n) := fun hmem => hndPS.2.2 hmem hk
  have hSnd : (lastN n D).Nodup := hndPS.2.1
  have hfilter : D.filter (fun x => x ≠ k)
      = D.take (D.length - n) ++ (lastN n D).filter (fun x => x ≠ k) := by
    conv_lhs => rw [← hdec]
    rw [List.filter_append, List.filter_eq_self.mpr (fun x hx => by
      simp only [ne_eq, decide_eq_true_eq]
      exact fun he => hkP (he ▸ hx))]
  rw [hfilter]
  have hlenS : ((lastN n D).filter (fun x => x ≠ k)).length + 1
      = (lastN n D).length := filter_ne_length_of_nodup (lastN n D) k hSnd hk
  by_cases hfull : (lastN n D).length = n
  · exact (lastN_append_exact (n - 1) _ _ (by omega)).symm
  · have hlen : (lastN n D).length ≤ n := lastN_length_le n D
    have hlN := lastN_len n D
    have hP0 : D.take (D.length - n) = [] := by
      have hz : D.length - n = 0 := by omega
      rw [hz, List.take_zero]
    rw [hP0, List.nil_append]
    exact (lastN_of_le (n - 1) _ (by omega)).symm

theorem lastN_touch_evict {K : Type} [DecidableEq K] (n : Nat) (hn : 1 ≤ n)
    (D : List K) (k : K) (hk : k ∉ lastN n D)
    (hfull : (lastN n D).length = n) :
    (lastN n D).drop 1 ++ [k] = lastN n (touchFold D k) := by
  rw [touchFold, lastN_append_singleton n hn _ k]
  congr 1
  have hdec : D.take (D.length - n) ++ lastN n D = D := List.take_append_drop _ D
  have hS : (lastN n D).filter (fun x => x ≠ k) = lastN n D :=
    List.filter_eq_self.mpr (fun x hx => by
      simp only [ne_eq, decide_eq_true_eq]
      exact fun he => hk (he ▸ hx))
  have hfilter : D.filter (fun x => x ≠ k)
      = (D.take (D.length - n)).filter (fun x => x ≠ k) ++ lastN n D := by
    conv_lhs => rw [← hdec]
    rw [List.filter_append, hS]
  rw [hfilter, lastN_append_of_le (n - 1) _ _ (by omega)]
  show (lastN n D).drop 1 = (lastN n D).drop ((lastN n D).length - (n - 1))
  congr 1
  omega

theorem lastN_touch_append {K : Type} [DecidableEq K] (n : Nat) (hn : 1 ≤ n)
    (D : List K) (k : K) (hk : k ∉ lastN n D)
    (hshort : (lastN n D).length < n) :
    lastN n D ++ [k] = lastN n (touchFold D k) := by
  have hlN := lastN_len n D
  have hSD : lastN n D = D := lastN_of_le n D (by omega)
  rw [hSD] at hk ⊢
  have hfilter : D.filter (fun x => x ≠ k) = D :=
    List.filter_eq_self.mpr (fun x hx => by
      simp only [ne_eq, decide_eq_true_eq]
      exact fun he => hk (he ▸ hx))
  rw [touchFold, hfilter, lastN_append_singleton n hn _ k,
    lastN_of_le (n - 1) D (by rw [hSD] at hshort; omega)]

theorem LRUCache.setItem_evict_eq {K V : Type} [DecidableEq K]
    (c : LRUCache K V) (key : K) (v : V) (t : Int)
    (hc : containsKey key c.data = false)
    (hge : (c.data.length : Int) ≥ c.max_size) (e : Entry K V)
    (rest : List (Entry K V)) (hd : c.data = e :: rest) :
    c.setItem key v t = some { c with data := rest ++ [(key, v, t)] } := by
  have hrest : containsKey key rest = false := by
    rw [containsKey_eq_false] at hc ⊢
    intro e2 he2
    exact hc e2 (by rw [hd]; exact List.mem_cons_of_mem e he2)
  rw [LRUCache.setItem, if_neg (by simp [hc]), if_pos hge, hd]
  show some { c with data := dictSet key v t rest } = _
  rw [dictSet_of_not_contains key v t rest hrest]

theorem LRUCache.setItem_append_eq {K V : Type} [DecidableEq K]
    (c : LRUCache K V) (key : K) (v : V) (t : Int)
    (hc : containsKey key c.data = false)
    (hlt : ¬ (c.data.length : Int) ≥ c.max_size) :
    c.setItem key v t = some { c with data := c.data ++ [(key, v, t)] } := by
  rw [LRUCache.setItem, if_neg (by simp [hc]), if_neg hlt,
    dictSet_of_not_contains key v t c.data hc]

theorem LRUCache.setItem_empty_none {K V : Type} [DecidableEq K]
    (c : LRUCache K V) (key : K) (v : V) (t : Int)
    (hc : containsKey key c.data = false)
    (hge : (c.data.length : Int) ≥ c.max_size) (hd : c.data = []) :
    c.setItem key v t = none := by
  rw [LRUCache.setItem, if_neg (by simp [hc]), if_pos hge, hd]

theorem lruStep_keys {K V : Type} [DecidableEq K] (n : Nat) (hn : 1 ≤ n)
    (c : LRUCache K V) (D : List K) (hms : c.max_size = (n : Int))
    (hD : D.Nodup) (hkeys : keysOf c.data = lastN n D) (op : LOp K V) (t : Int)
    (hop : op.isDel = false) :
    (lruStep c op t).1.max_size = (n : Int) ∧
    ((lruStep c op t).2.foldl touchFold D).Nodup ∧
    keysOf (lruStep c op t).1.data
      = lastN n ((lruStep c op t).2.foldl touchFold D) := by
  have hlenS : (lastN n D).length = c.data.length := by
    rw [← hkeys, length_keysOf]
  have hlenle : (lastN n D).length ≤ n := lastN_length_le n D
  cases op with
  | del k => simp [LOp.isDel] at hop
  | set k v =>
      by_cases hc : containsKey k c.data = true
      · rcases hl : lookupEntry k c.data with _ | vt
        · rw [containsKey, hl] at hc
          cases hc
        · have hset := LRUCache.setItem_present_eq c k v t vt hl
          have hkmem : k ∈ lastN n D := by
            rw [← hkeys]
            exact (containsKey_iff_mem k c.data).mp hc
          simp only [lruStep, hset, List.foldl_cons, List.foldl_nil]
          refine ⟨hms, touchFold_nodup D hD k, ?_⟩
          show keysOf (eraseKey k c.data ++ [(k, v, t)]) = _
          rw [keysOf_append, keysOf_eraseKey, hkeys]
          show (lastN n D).filter (fun x => x ≠ k) ++ [k] = _
          exact lastN_touch_mem n hn D hD k hkmem
      · rw [Bool.not_eq_true] at hc
        have hkmem : k ∉ lastN n D := by
          rw [← hkeys]
          intro hm
          have h2 := (containsKey_iff_mem k c.data).mpr hm
          rw [hc] at h2
          cases h2
        by_cases hge : (c.data.length : Int) ≥ c.max_size
        · have hgeN : c.data.length ≥ n := by
            rw [hms] at hge
            exact_mod_cast hge
          have hfull : (lastN n D).length = n := by omega
          cases hd : c.data with
          | nil =>
              rw [hd] at hlenS
              simp only [List.length_nil] at hlenS
              omega
          | cons e rest =>
              have hset := LRUCache.setItem_evict_eq c k v t hc hge e rest hd
              simp only [lruStep, hset, List.foldl_cons, List.foldl_nil]
              refine ⟨hms, touchFold_nodup D hD k, ?_⟩
              show keysOf (rest ++ [(k, v, t)]) = _
              rw [keysOf_append]
              have hrest : keysOf rest = (lastN n D).drop 1 := by
                rw [← hkeys, hd]
                rfl
              rw [hrest]
              show (lastN n D).drop 1 ++ [k] = _
              exact lastN_touch_evict n hn D k hkmem hfull
        · have hset := LRUCache.setItem_append_eq c k v t hc hge
          have hshort : (lastN n D).length < n := by
            rw [hms] at hge
            have : ¬ c.data.length ≥ n := fun h2 => hge (by exact_mod_cast h2)
            omega
          simp only [lruStep, hset, List.foldl_cons, List.foldl_nil]
          refine ⟨hms, touchFold_nodup D hD k, ?_⟩
          show keysOf (c.data ++ [(k, v, t)]) = _
          rw [keysOf_append, hkeys]
          show lastN n D ++ [k] = _
          exact lastN_touch_append n hn D k hkmem hshort
  | get k =>
      rcases hl : lookupEntry k c.data with _ | vt
      · simp only [lruStep, LRUCache.getItem, hl, Option.isSome_none,
          Bool.false_eq_true, if_false, List.foldl_nil]
        exact ⟨hms, hD, hkeys⟩
      · have hc : containsKey k c.data = true := by
          rw [containsKey, hl]
          rfl
        have hkmem : k ∈ lastN n D := by
          rw [← hkeys]
          exact (containsKey_iff_mem k c.data).mp hc
        have herase := length_eraseKey_lt k c.data hc
        have hcp : containsKey k (eraseKey k c.data) = false :=
          containsKey_eraseKey_self k c.data
        have hlt : ¬ ((eraseKey k c.data).length : Int) ≥ c.max_size := by
          rw [hms]
          push_neg
          have hbound : (eraseKey k c.data).length < n := by omega
          exact_mod_cast hbound
        have hset := LRUCache.setItem_append_eq
          { c with data := eraseKey k c.data } k vt.1 t hcp hlt
        simp only [lruStep, LRUCache.getItem, hl, hset, Option.isSome_some,
          if_true, List.foldl_cons, List.foldl_nil]
        refine ⟨hms, touchFold_nodup D hD k, ?_⟩
        show keysOf (eraseKey k c.data ++ [(k, vt.1, t)]) = _
        rw [keysOf_append, keysOf_eraseKey, hkeys]
        show (lastN n D).filter (fun x => x ≠ k) ++ [k] = _
        exact lastN_touch_mem n hn D hD k hkmem

theorem lruStep_size {K V : Type} [DecidableEq K] (n : Nat) (c : LRUCache K V)
    (hms : c.max_size = (n : Int)) (hlen : c.data.length ≤ n) (op : LOp K V)
    (t : Int) :
    (lruStep c op t).1.max_size = (n : Int) ∧
    (lruStep c op t).1.data.length ≤ n := by
  cases op with
  | set k v =>
      by_cases hc : containsKey k c.data = true
      · rcases hl : lookupEntry k c.data with _ | vt
        · rw [containsKey, hl] at hc
          cases hc
        · have hset := LRUCache.setItem_present_eq c k v t vt hl
          simp only [lruStep, hset]
          refine ⟨hms, ?_⟩
          show (eraseKey k c.data ++ [(k, v, t)]).length ≤ n
          rw [List.length_append]
          have hel := length_eraseKey_lt k c.data hc
          simp only [List.length_cons, List.length_nil]
          omega
      · rw [Bool.not_eq_true] at hc
        by_cases hge : (c.data.length : Int) ≥ c.max_size
        · cases hd : c.data with
          | nil =>
              have hset := LRUCache.setItem_empty_none c k v t hc hge hd
              simp only [lruStep, hset]
              exact ⟨hms, hlen⟩
          | cons e rest =>
              have hset := LRUCache.setItem_evict_eq c k v t hc hge e rest hd
              simp only [lruStep, hset]
              refine ⟨hms, ?_⟩
              show (rest ++ [(k, v, t)]).length ≤ n
              rw [List.length_append]
              have hlen2 : c.data.length = rest.length + 1 := by
                rw [hd]
                rfl
              simp only [List.length_cons, List.length_nil]
              omega
        · have hset := LRUCache.setItem_append_eq c k v t hc hge
          simp only [lruStep, hset]
          refine ⟨hms, ?_⟩
          show (c.data ++ [(k, v, t)]).length ≤ n
          rw [List.length_append]
          rw [hms] at hge
          have hlt : c.data.length < n := by
            by_contra hno
            push_neg at hno
            exact hge (by exact_mod_cast hno)
          simp only [List.length_cons, List.length_nil]
          omega
  | get k =>
      rcases hl : lookupEntry k c.data with _ | vt
      · simp only [lruStep, LRUCache.getItem, hl]
        exact ⟨hms, hlen⟩
      · have hc : containsKey k c.data = true := by
          rw [containsKey, hl]
          rfl
        have herase := length_eraseKey_lt k c.data hc
        have hcp := containsKey_eraseKey_self k c.data
        have hlt : ¬ ((eraseKey k c.data).length : Int) ≥ c.max_size := by
          rw [hms]
          push_neg
          have hbound : (eraseKey k c.data).length < n := by omega
          exact_mod_cast hbound
        have hset := LRUCache.setItem_append_eq
          { c with data := eraseKey k c.data } k vt.1 t hcp hlt
        simp only [lruStep, LRUCache.getItem, hl, hset]
        refine ⟨hms, ?_⟩
        show (eraseKey k c.data ++ [(k, vt.1, t)]).length ≤ n
        rw [List.length_append]
        simp only [List.length_cons, List.length_nil]
        omega
  | del k =>
      by_cases hc : containsKey k c.data = true
      · simp only [lruStep, LRUCache.delItem, if_pos hc]
        refine ⟨hms, ?_⟩
        show (eraseKey k c.data).length ≤ n
        rw [eraseKey]
        exact le_trans (List.length_filter_le _ _) hlen
      · simp only [lruStep, LRUCache.delItem, if_neg hc]
        exact ⟨hms, hlen⟩

theorem lruRun_size {K V : Type} [DecidableEq K] (n : Nat)
    (ops : List (LOp K V × Int)) :
    ∀ c : LRUCache K V, c.max_size = (n : Int) → c.data.length ≤ n →
    (lruRun c ops).1.max_size = (n : Int) ∧ (lruRun c ops).1.data.length ≤ n := by
  induction ops with
  | nil =>
      intro c hms hlen
      exact ⟨hms, hlen⟩
  | cons p ps ih =>
      intro c hms hlen
      have hstep := lruStep_size n c hms hlen p.1 p.2
      have hrest := ih (lruStep c p.1 p.2).1 hstep.1 hstep.2
      simp only [lruRun]
      exact hrest

theorem lruRun_keys {K V : Type} [DecidableEq K] (n : Nat) (hn : 1 ≤ n)
    (ops : List (LOp K V × Int)) :
    ∀ (c : LRUCache K V) (D : List K), c.max_size = (n : Int) → D.Nodup →
    keysOf c.data = lastN n D → (∀ p ∈ ops, p.1.isDel = false) →
    (lruRun c ops).1.max_size = (n : Int) ∧
    ((lruRun c ops).2.foldl touchFold D).Nodup ∧
    keysOf (lruRun c ops).1.data
      = lastN n ((lruRun c ops).2.foldl touchFold D) := by
  induction ops with
  | nil =>
      intro c D hms hD hkeys _
      exact ⟨hms, hD, hkeys⟩
  | cons p ps ih =>
      intro c D hms hD hkeys hdel
      have hstep := lruStep_keys n hn c D hms hD hkeys p.1 p.2
        (hdel p (List.mem_cons_self p ps))
      have hrest := ih (lruStep c p.1 p.2).1
        ((lruStep c p.1 p.2).2.foldl touchFold D) hstep.1 hstep.2.1 hstep.2.2
        (fun q hq => hdel q (List.mem_cons_of_mem p hq))
      simp only [lruRun]
      rw [List.foldl_append]
      exact hrest

/-- Claim C1 counterexample: with capacity 1 and the operation sequence
set 0 then delete 0, after the delete (a mutating operation) completes the
live key set is empty while the most recently touched distinct key list is
[0] (both the set and the delete touched key 0), so the live keys do not
equal the most-recently-touched distinct keys. -/
theorem lru_live_keys_counterexample :
    ¬ (keysOf (lruRun (LRUCache.init Nat Nat 1)
        [(LOp.set 0 0, 0), (LOp.del 0, 1)]).1.data
      = lastN 1 (dedupLast (lruRun (LRUCache.init Nat Nat 1)
        [(LOp.set 0 0, 0), (LOp.del 0, 1)]).2)) := by decide

/-- Claim C1 as amended: for a cache constructed with positive capacity n,
after any sequence of set, get, and delete operations the size is at most n;
and for sequences without delete, the live keys (in recency order) are
exactly the at most n most recently touched distinct keys, where a set
touches its key and a successful get touches its key.  Every prefix of a run
is itself a run, so this holds after each operation. -/
theorem lru_live_keys_amended {K V : Type} [DecidableEq K] (n : Nat)
    (hn : 0 < n) (ops : List (LOp K V × Int)) :
    (lruRun (LRUCache.init K V (n : Int)) ops).1.data.length ≤ n ∧
    ((∀ p ∈ ops, p.1.isDel = false) →
      keysOf (lruRun (LRUCache.init K V (n : Int)) ops).1.data
        = lastN n (dedupLast (lruRun (LRUCache.init K V (n : Int)) ops).2)) := by
  constructor
  · exact (lruRun_size n ops (LRUCache.init K V (n : Int)) rfl
      (Nat.zero_le n)).2
  · intro hdel
    have h := lruRun_keys n hn ops (LRUCache.init K V (n : Int)) [] rfl
      List.nodup_nil (by simp [keysOf, lastN, LRUCache.init]) hdel
    exact h.2.2

/-- Witness for the amended claim C1: capacity 2, the promotion scenario of
the spec; live keys are [1, 3], which are the two most recently touched
distinct keys. -/
theorem lru_live_keys_amended_witness :
    (0 < 2) ∧
    (∀ p ∈ [((LOp.set 1 1 : LOp Nat Nat), (0 : Int)), (.set 2 2, 1),
        (.get 1, 2), (.set 3 3, 3)], p.1.isDel = false) ∧
    (lruRun (LRUCache.init Nat Nat ((2 : Nat) : Int))
        [((LOp.set 1 1 : LOp Nat Nat), (0 : Int)), (.set 2 2, 1), (.get 1, 2),
          (.set 3 3, 3)]).1.data.length ≤ 2 ∧
    keysOf (lruRun (LRUCache.init Nat Nat ((2 : Nat) : Int))
        [((LOp.set 1 1 : LOp Nat Nat), (0 : Int)), (.set 2 2, 1), (.get 1, 2),
          (.set 3 3, 3)]).1.data
      = lastN 2 (dedupLast (lruRun (LRUCache.init Nat Nat ((2 : Nat) : Int))
        [((LOp.set 1 1 : LOp Nat Nat), (0 : Int)), (.set 2 2, 1), (.get 1, 2),
          (.set 3 3, 3)]).2) :=
  ⟨by decide, by decide,
   (lru_live_keys_amended 2 (by decide) _).1,
   (lru_live_keys_amended 2 (by decide) _).2 (by decide)⟩
